import Mathlib

/-!
Verification of the store core of `react-fast-context`
(src/CreateFastContext.tsx).

The store created by `createFastContext` / `useStoreData` is an in-memory
mutable cell (`store = useRef(initialState)`) together with a subscriber
registry (`subscribers = useRef(new Set())`) and three operations:

  * `get   = () => store.current`
  * `set   = (value) => { store.current = { ...store.current, ...value };
                          subscribers.current.forEach((s) => s()); }`
  * `subscribe = (callback) => { subscribers.current.add(callback);
                                 return () => subscribers.current.delete(callback); }`

We embed this shallowly:

  * a JavaScript value is modelled by the inductive `JVal`; an object is an
    association list of fields (JS object keys are unique, insertion ordered);
  * the spread merge `{ ...old, ...patch }` is `spreadMerge`;
  * the JS `Set` of subscriber callbacks is modelled in two ways:
    - callbacks identified by a `Nat` id (reference identity) kept in a
      duplicate-free insertion-ordered list (`addSub` / `delSub`), with the
      observable behaviour of a store captured by the step function `step`
      on the operation alphabet `Op` (callbacks as pure observers); and
    - a richer fuel-indexed interpreter (`runActs` / `notifyLoop` / `doSetM`)
      in which callbacks may themselves call `set`, `subscribe` and the
      unsubscribe closure while a notification loop is running.  The entry
      list carries an alive flag so that iteration behaves exactly like JS
      `Set.prototype.forEach` over a live set: entries removed before being
      visited are skipped, entries appended during iteration are visited.
  * `useStore`'s guard (`if (!store) throw new Error("Store not found!")`)
    is `useStoreGuard` over an optional context value.

Throughout, `step`/`runOps` return alongside the new state the list of
subscriber ids invoked (the "invocation log") so that notification claims
become statements about that list.
-/

set_option synthInstance.maxSize 1024

namespace FastContext

/-- A JavaScript field value: a number, a string, a boolean, null, or a
nested plain aggregate (an object given by its own field list).  The spread
merge in `set` never inspects field values, so nesting the aggregate one
level deep is enough to observe that nested aggregates are replaced
wholesale, never merged recursively. -/
inductive JVal where
  | num : Int → JVal
  | str : String → JVal
  | bool : Bool → JVal
  | null : JVal
  | obj : List (String × Int) → JVal
deriving DecidableEq, Repr

/-- The store value: a plain JS object, i.e. a field list. -/
abbrev Value := List (String × JVal)

/-- Field lookup in a JS object: the value of the first (hence, for a real
JS object, the unique) field with the given key. -/
def lookupField : Value → String → Option JVal
  | [], _ => none
  | (k, v) :: rest, key => if k = key then some v else lookupField rest key

/-- The JS object spread `{ ...old, ...patch }` used by `set`
(src/CreateFastContext.tsx line 36): fields of `old` keep their place, with
the value overwritten when `patch` also has the key; fields of `patch` whose
key is absent from `old` are appended in order. -/
def spreadMerge (old patch : Value) : Value :=
  old.map (fun kv =>
    match lookupField patch kv.1 with
    | some v => (kv.1, v)
    | none => kv)
  ++ patch.filter (fun kv => (lookupField old kv.1).isNone)

/-! ## The store with passive subscribers

Subscriber callbacks are identified by reference identity; we model the
identity by a `Nat` id.  The JS `Set` of callbacks (`subscribers.current`)
keeps insertion order and never holds duplicates: `add` appends a fresh
element at the end and is a no-op on an element already present; `delete`
removes the element.  A store's state is the current value of the ref
`store.current` together with the registry. -/

/-- `subscribers.current.add callback`: appends if absent, no-op if present. -/
def addSub (subs : List Nat) (i : Nat) : List Nat :=
  if i ∈ subs then subs else subs ++ [i]

/-- `subscribers.current.delete callback`: removes the element (under the
no-duplicates invariant, `filter` removes exactly the one occurrence). -/
def delSub (subs : List Nat) (i : Nat) : List Nat :=
  subs.filter (fun j => j ≠ i)

/-- The mutable state owned by one `useStoreData` call: the value held by
the ref `store` and the subscriber registry held by the ref `subscribers`. -/
structure SState where
  value : Value
  subs : List Nat
deriving DecidableEq, Repr

/-- The store created by one factory invocation: the ref starts at
`initialState` and the subscriber set starts empty. -/
def createStore (initialState : Value) : SState :=
  { value := initialState, subs := [] }

/-- `get = () => store.current`. -/
def get (s : SState) : Value :=
  s.value

/-- The operations a client can perform on a store. -/
inductive Op where
  | subOp : Nat → Op
  | unsubOp : Nat → Op
  | setOp : Value → Op
  | getOp : Op
deriving DecidableEq, Repr

/-- One client operation.  Returns the new state and the invocation log:
the ids of the subscriber callbacks invoked, in invocation order.  `set`
first overwrites `store.current` with the spread merge and then invokes
every registered subscriber (`subscribers.current.forEach`); with passive
callbacks the registry does not change during the loop, so the log is
exactly the registry at the moment notification begins.  `subscribe`,
unsubscribe and `get` invoke nobody. -/
def step (s : SState) : Op → SState × List Nat
  | .subOp i => ({ s with subs := addSub s.subs i }, [])
  | .unsubOp i => ({ s with subs := delSub s.subs i }, [])
  | .setOp p => ({ s with value := spreadMerge s.value p }, s.subs)
  | .getOp => (s, [])

/-- Run a sequence of client operations, concatenating the invocation logs. -/
def runOps (s : SState) : List Op → SState × List Nat
  | [] => (s, [])
  | op :: rest =>
    let r := step s op
    let r2 := runOps r.1 rest
    (r2.1, r.2 ++ r2.2)

/-- Whether a trace contains a `set` call. -/
def hasSet : List Op → Bool
  | [] => false
  | Op.setOp _ :: _ => true
  | _ :: rest => hasSet rest

/-! ## Two stores side by side

Each call of the factory (each `Provider` mounting `useStoreData`) allocates
its own refs; a world holds two such stores, and every client operation is
addressed to one of them. -/

/-- An operation addressed to store A or to store B. -/
inductive WOp where
  | opA : Op → WOp
  | opB : Op → WOp
deriving DecidableEq, Repr

/-- One addressed operation on the pair of stores; invocation-log entries
are tagged with the store whose subscriber was invoked (`false` = A,
`true` = B). -/
def stepW (w : SState × SState) : WOp → (SState × SState) × List (Bool × Nat)
  | .opA op =>
    let r := step w.1 op
    ((r.1, w.2), r.2.map (fun i => (false, i)))
  | .opB op =>
    let r := step w.2 op
    ((w.1, r.1), r.2.map (fun i => (true, i)))

/-- Run a sequence of addressed operations. -/
def runW (w : SState × SState) : List WOp → (SState × SState) × List (Bool × Nat)
  | [] => (w, [])
  | op :: rest =>
    let r := stepW w op
    let r2 := runW r.1 rest
    (r2.1, r.2 ++ r2.2)

/-- The operations of a trace addressed to store B. -/
def projB : List WOp → List Op
  | [] => []
  | .opA _ :: rest => projB rest
  | .opB op :: rest => op :: projB rest

/-! ## The `useStore` guard

`useStore` reads the store API from the ambient context
(`useContext(StoreContext)`); the context default is `null`, so with no
`Provider` above, the hook sees `null` and throws.  We model the context
content as an optional store and the hook's guard as returning either the
thrown error message or the store it proceeds with. -/

/-- The guard at the top of `useStore` (src/CreateFastContext.tsx lines
77-80): `const store = useContext(StoreContext); if (!store) throw new
Error("Store not found!")`. -/
def useStoreGuard (ctx : Option SState) : Except String SState :=
  match ctx with
  | none => .error "Store not found!"
  | some s => .ok s

/-! ## The store with active subscribers

To settle the re-entrancy claims we refine the registry model: subscriber
callbacks get behaviour.  A callback, invoked with the store value it reads
via `get` at that moment, performs a list of actions: further `set` calls,
`subscribe` calls, or calls of unsubscribe closures.  The JS `Set` iterated
by `forEach` is modelled as its internal ordered entry list with an alive
flag: `delete` marks the entry dead (a tombstone), `add` appends a fresh
entry when the element is not currently present, and `forEach` walks the
entry list by position, invoking exactly the entries alive when reached —
precisely the live-iteration behaviour of `Set.prototype.forEach` (deleted
but unvisited entries are skipped, entries added during iteration are
visited).  The interpreter is fuel-indexed: `none` means the fuel ran out
(an infinite re-entrant cascade never returns). -/

/-- An action a subscriber callback can perform against its store. -/
inductive Act where
  | actSet : Value → Act
  | actSub : Nat → Act
  | actUnsub : Nat → Act
deriving DecidableEq, Repr

/-- The behaviour of the callbacks: callback `i`, reading store value `v`
when invoked, performs the actions `env i v` in order. -/
abbrev Env : Type := Nat → Value → List Act

/-- The internal entry list of the subscriber `Set`: ids with alive flags. -/
abbrev Entries : Type := List (Nat × Bool)

/-- Membership of the `Set`: some entry for this id is alive. -/
def aliveE (es : Entries) (i : Nat) : Bool :=
  es.any (fun e => e.1 == i && e.2)

/-- The ids currently in the `Set`, in insertion order. -/
def aliveIds (es : Entries) : List Nat :=
  (es.filter (fun e => e.2)).map (fun e => e.1)

/-- `Set.add`: no-op when present, else append a live entry. -/
def addE (es : Entries) (i : Nat) : Entries :=
  if aliveE es i then es else es ++ [(i, true)]

/-- `Set.delete`: mark the id's entries dead, keeping tombstones in place. -/
def delE (es : Entries) (i : Nat) : Entries :=
  es.map (fun e => if e.1 = i then (e.1, false) else e)

/-- Store state in the active-subscriber model. -/
structure MState where
  value : Value
  entries : Entries
deriving DecidableEq, Repr

/-- An invocation record: the nesting depth of the `set` call whose
notification loop invoked the callback (0 = outermost), the callback id,
and the store value the callback observes via `get` when invoked. -/
abbrev LogE : Type := Nat × Nat × Value

mutual

/-- Perform one callback action. -/
def runAct : Nat → Env → Nat → Act → MState → Option (MState × List LogE)
  | 0, _, _, _, _ => none
  | fuel + 1, env, d, .actSet p, st => doSetM fuel env d p st
  | _ + 1, _, _, .actSub i, st =>
    some ({ st with entries := addE st.entries i }, [])
  | _ + 1, _, _, .actUnsub i, st =>
    some ({ st with entries := delE st.entries i }, [])
  termination_by structural fuel _ _ _ _ => fuel

/-- Perform a callback's actions in order, accumulating the log. -/
def runActs : Nat → Env → Nat → List Act → MState → Option (MState × List LogE)
  | 0, _, _, _, _ => none
  | _ + 1, _, _, [], st => some (st, [])
  | fuel + 1, env, d, a :: rest, st =>
    match runAct fuel env d a st with
    | none => none
    | some r =>
      match runActs fuel env d rest r.1 with
      | none => none
      | some r2 => some (r2.1, r.2 ++ r2.2)
  termination_by structural fuel _ _ _ _ => fuel

/-- `set` at depth `d`: overwrite `store.current` with the spread merge,
then run the notification loop over the live entry list from position 0. -/
def doSetM : Nat → Env → Nat → Value → MState → Option (MState × List LogE)
  | 0, _, _, _, _ => none
  | fuel + 1, env, d, p, st =>
    notifyLoop fuel env d 0 { st with value := spreadMerge st.value p }
  termination_by structural fuel _ _ _ _ => fuel

/-- `subscribers.current.forEach((subscriber) => subscriber())`, walking the
live entry list from position `i`: a dead entry is skipped; a live entry's
callback is invoked (logged at depth `d` with the value it observes) and its
actions run (nested notifications at depth `d + 1`) before the walk moves
on over the possibly-mutated entry list. -/
def notifyLoop : Nat → Env → Nat → Nat → MState → Option (MState × List LogE)
  | 0, _, _, _, _ => none
  | fuel + 1, env, d, i, st =>
    if h : i < st.entries.length then
      let e := st.entries.get ⟨i, h⟩
      if e.2 then
        match runActs fuel env (d + 1) (env e.1 st.value) st with
        | none => none
        | some r =>
          match notifyLoop fuel env d (i + 1) r.1 with
          | none => none
          | some r2 => some (r2.1, (d, e.1, st.value) :: (r.2 ++ r2.2))
      else notifyLoop fuel env d (i + 1) st
    else some (st, [])
  termination_by structural fuel _ _ _ _ => fuel

end

/-- An environment whose callbacks only call `set` (never `subscribe` or an
unsubscribe closure): the registry is not touched during notification. -/
def regPassive (env : Env) : Prop :=
  ∀ i v a, a ∈ env i v → ∃ p, a = Act.actSet p

/-! ## Concrete stores and callback behaviours used as test inputs -/

/-- Callback behaviour for the live-iteration scenario: callback 1 calls
the unsubscribe closure of callback 2; every other callback does nothing. -/
def unsubDuringNotifyEnv : Env := fun i _ =>
  if i = 1 then [Act.actUnsub 2] else []

/-- A store with value `x: 0` and subscribers 1, 2 and 3. -/
def threeSubsSt : MState :=
  { value := [("x", JVal.num 0)], entries := [(1, true), (2, true), (3, true)] }

/-- Re-entrant but terminating behaviour that also grows the registry:
callback 0 reads the counter and, while it is below 2, subscribes a new
callback 4 and re-entrantly calls `set` to increment the counter;
callbacks 1 and 4 observe. -/
def reentrantEnv : Env := fun i v =>
  if i = 0 then
    match lookupField v "count" with
    | some (JVal.num n) =>
      if n < 2 then
        [Act.actSub 4, Act.actSet [("count", JVal.num (n + 1))]]
      else []
    | _ => []
  else []

/-- A store with value `count: 0` and subscribers 0 and 1. -/
def reentrantSt : MState :=
  { value := [("count", JVal.num 0)], entries := [(0, true), (1, true)] }

/-- The result of `set({count: 1})` on `reentrantSt` under `reentrantEnv`:
the nested `set` call drives the counter to 2, nested notifications are
logged at depth 1, the subscriber 4 appended during the loop is visited
too, and each of the start-registered subscribers 0 and 1 is invoked
exactly once at depth 0, followed by the added subscriber 4. -/
def reentrantResult : MState × List LogE :=
  ({ value := [("count", JVal.num 2)],
     entries := [(0, true), (1, true), (4, true)] },
   [(0, 0, [("count", JVal.num 1)]),
    (1, 0, [("count", JVal.num 2)]),
    (1, 1, [("count", JVal.num 2)]),
    (1, 4, [("count", JVal.num 2)]),
    (0, 1, [("count", JVal.num 2)]),
    (0, 4, [("count", JVal.num 2)])])

/-- Observer-only behaviour: no callback performs any action. -/
def observerEnv : Env := fun _ _ => []

/-- A store with value `a: 1, b: 2` and one subscriber. -/
def twoFieldSt : MState :=
  { value := [("a", JVal.num 1), ("b", JVal.num 2)], entries := [(1, true)] }

/-- The result of `set({b: 3})` on `twoFieldSt` under `observerEnv`: the
subscriber is invoked once and observes the fully merged value. -/
def observerResult : MState × List LogE :=
  ({ value := [("a", JVal.num 1), ("b", JVal.num 3)], entries := [(1, true)] },
   [(0, 1, [("a", JVal.num 1), ("b", JVal.num 3)])])

/-- An environment whose callbacks do nothing at all (the binding-layer
pattern: each notification only schedules a re-read outside the store). -/
def observerOnly (env : Env) : Prop :=
  ∀ j v, env j v = []

/-- An environment whose callbacks never call an unsubscribe closure during
notification; they may re-entrantly call `set` and `subscribe`. -/
def noRemoval (env : Env) : Prop :=
  ∀ i v a, a ∈ env i v → ∀ j, a ≠ Act.actUnsub j

/-! ## Library lemmas about the embedding -/

/-- Lookup distributes over append: the first list wins. -/
theorem lookupField_append (xs ys : Value) (k : String) :
    lookupField (xs ++ ys) k =
      match lookupField xs k with
      | some v => some v
      | none => lookupField ys k := by
  induction xs with
  | nil => simp [lookupField]
  | cons kv rest ih =>
    by_cases h : kv.1 = k
    · simp [lookupField, h]
    · simp [lookupField, h, ih]

/-- Lookup in the overwrite pass of the merge: keys are preserved, and the
value found at `k` is the patched one. -/
theorem lookupField_overwrite (old patch : Value) (k : String) :
    lookupField
      (old.map (fun kv =>
        match lookupField patch kv.1 with
        | some v => (kv.1, v)
        | none => kv)) k =
      (lookupField old k).map (fun v =>
        match lookupField patch k with
        | some w => w
        | none => v) := by
  induction old with
  | nil => simp [lookupField]
  | cons kv rest ih =>
    by_cases h : kv.1 = k
    · subst h
      cases hp : lookupField patch kv.1 <;>
        simp [lookupField, hp]
    · cases hp : lookupField patch kv.1 <;>
        simp [lookupField, hp, h, ih]

/-- Lookup in the append pass of the merge: when `old` has no field `k`,
filtering `patch` by "key absent from `old`" keeps every `k`-field, so
lookup is unchanged. -/
theorem lookupField_filter_of_not_mem (old patch : Value) (k : String)
    (h : lookupField old k = none) :
    lookupField (patch.filter (fun kv => (lookupField old kv.1).isNone)) k =
      lookupField patch k := by
  induction patch with
  | nil => simp [lookupField]
  | cons kv rest ih =>
    by_cases hk : kv.1 = k
    · subst hk
      simp [List.filter, h, lookupField, ih]
    · by_cases hkept : (lookupField old kv.1).isNone
      · simp [List.filter, hkept, lookupField, hk, ih]
      · simp [List.filter, hkept, lookupField, hk, ih]

/-- Pointwise description of the spread merge: a field present in the patch
takes the patch's value, a field absent from the patch keeps the old value. -/
theorem lookupField_spreadMerge (old patch : Value) (k : String) :
    lookupField (spreadMerge old patch) k =
      match lookupField patch k with
      | some v => some v
      | none => lookupField old k := by
  unfold spreadMerge
  rw [lookupField_append, lookupField_overwrite]
  cases ho : lookupField old k with
  | some w =>
    cases hp : lookupField patch k <;> simp [hp]
  | none =>
    cases hp : lookupField patch k <;>
      simp [lookupField_filter_of_not_mem old patch k ho, hp]

/-- The registry never acquires duplicates: `add` appends only a fresh id. -/
theorem addSub_nodup (subs : List Nat) (i : Nat) (h : subs.Nodup) :
    (addSub subs i).Nodup := by
  unfold addSub
  by_cases hm : i ∈ subs <;>
    simp [hm, h, List.nodup_append, List.disjoint_singleton]

/-- Removal keeps the registry duplicate-free. -/
theorem delSub_nodup (subs : List Nat) (i : Nat) (h : subs.Nodup) :
    (delSub subs i).Nodup :=
  h.filter _

/-- Every operation preserves the no-duplicates invariant of the registry. -/
theorem step_nodup (s : SState) (op : Op) (h : s.subs.Nodup) :
    (step s op).1.subs.Nodup := by
  cases op with
  | subOp i => exact addSub_nodup s.subs i h
  | unsubOp i => exact delSub_nodup s.subs i h
  | setOp p => exact h
  | getOp => exact h

/-- Adding twice is the same as adding once. -/
theorem addSub_idem (subs : List Nat) (i : Nat) :
    addSub (addSub subs i) i = addSub subs i := by
  unfold addSub
  by_cases hm : i ∈ subs <;> simp [hm]

/-- After an `add`, the id is registered. -/
theorem mem_addSub (subs : List Nat) (i : Nat) : i ∈ addSub subs i := by
  unfold addSub
  by_cases hm : i ∈ subs <;> simp [hm]

/-- After a `delete`, the id is no longer registered. -/
theorem not_mem_delSub (subs : List Nat) (i : Nat) : i ∉ delSub subs i := by
  simp [delSub]

/-- `delete` leaves every other id's multiplicity unchanged. -/
theorem count_delSub_of_ne (subs : List Nat) (i j : Nat) (h : j ≠ i) :
    (delSub subs i).count j = subs.count j := by
  induction subs with
  | nil => rfl
  | cons a rest ih =>
    by_cases ha : a = i
    · subst ha
      simp [delSub, List.filter, List.count_cons, Ne.symm h] at *
      exact ih
    · simp [delSub, List.filter, ha, List.count_cons] at *
      rw [ih]

/-- Deleting an id twice is the same as deleting it once. -/
theorem delSub_idem (subs : List Nat) (i : Nat) :
    delSub (delSub subs i) i = delSub subs i := by
  simp [delSub, List.filter_filter]

/-- In a duplicate-free registry the membership count of a present id is 1. -/
theorem count_eq_one_of_nodup (subs : List Nat) (i : Nat)
    (hn : subs.Nodup) (hm : i ∈ subs) : subs.count i = 1 :=
  List.count_eq_one_of_mem hn hm

/-- A trace without a `set` operation invokes no subscriber and leaves the
value untouched. -/
theorem runOps_no_set (s : SState) (ops : List Op) (h : hasSet ops = false) :
    (runOps s ops).2 = [] ∧ (runOps s ops).1.value = s.value := by
  induction ops generalizing s with
  | nil => simp [runOps]
  | cons op rest ih =>
    have hrest : hasSet rest = false := by
      cases op <;> simp_all [hasSet]
    have hstep : (step s op).2 = [] ∧ (step s op).1.value = s.value := by
      cases op with
      | subOp i => simp [step]
      | unsubOp i => simp [step]
      | setOp p => simp [hasSet] at h
      | getOp => simp [step]
    have := ih (step s op).1 hrest
    simp [runOps, hstep.1, hstep.2 ▸ this.2, this.1, this.2, hstep.2]

/-- Subscribing a list of fresh, pairwise-distinct ids appends them to the
registry in order. -/
theorem runOps_subs_append (s : SState) (ids : List Nat)
    (hn : ids.Nodup) (hf : ∀ i ∈ ids, i ∉ s.subs) :
    (runOps s (ids.map Op.subOp)).1.subs = s.subs ++ ids ∧
      (runOps s (ids.map Op.subOp)).1.value = s.value := by
  induction ids generalizing s with
  | nil => simp [runOps]
  | cons i rest ih =>
    have hstep : step s (Op.subOp i) =
        ({ s with subs := s.subs ++ [i] }, []) := by
      simp [step, addSub, hf i (by simp)]
    have hrest : ∀ j ∈ rest, j ∉ s.subs ++ [i] := by
      intro j hj
      simp only [List.mem_append, List.mem_singleton]
      rintro (hjs | hji)
      · exact hf j (by simp [hj]) hjs
      · subst hji
        exact (List.nodup_cons.mp hn).1 hj
    have := ih { s with subs := s.subs ++ [i] } (List.nodup_cons.mp hn).2 hrest
    simp [runOps, hstep, this.1, this.2]

/-- Store B evolves exactly as if the operations addressed to A had never
happened, and every B-tagged invocation comes from that B-only run. -/
theorem runW_snd (w : SState × SState) (ops : List WOp) :
    (runW w ops).1.2 = (runOps w.2 (projB ops)).1 ∧
      ((runW w ops).2.filter (fun e => e.1)).map (fun e => e.2) =
        (runOps w.2 (projB ops)).2 := by
  induction ops generalizing w with
  | nil => simp [runW, runOps, projB]
  | cons op rest ih =>
    cases op with
    | opA o =>
      have := ih ((step w.1 o).1, w.2)
      simp [runW, stepW, projB, this.1, this.2, List.filter_append,
        List.filter_map, List.map_map, Function.comp]
    | opB o =>
      have := ih (w.1, (step w.2 o).1)
      simp [runW, stepW, projB, runOps, this.1, this.2, List.filter_append,
        List.filter_map, List.map_map, Function.comp]

/-- Every invocation record produced at depth `d` carries depth ≥ `d`. -/
theorem log_depth_ge (fuel : Nat) :
    (∀ env d a st r, runAct fuel env d a st = some r →
      ∀ e ∈ r.2, d ≤ e.1) ∧
    (∀ env d acts st r, runActs fuel env d acts st = some r →
      ∀ e ∈ r.2, d ≤ e.1) ∧
    (∀ env d p st r, doSetM fuel env d p st = some r →
      ∀ e ∈ r.2, d ≤ e.1) ∧
    (∀ env d i st r, notifyLoop fuel env d i st = some r →
      ∀ e ∈ r.2, d ≤ e.1) := by
  induction fuel with
  | zero =>
    refine ⟨?_, ?_, ?_, ?_⟩ <;> intro env d a st r h <;>
      simp [runAct, runActs, doSetM, notifyLoop] at h
  | succ fuel ih =>
    obtain ⟨ihA, ihAs, ihS, ihL⟩ := ih
    refine ⟨?_, ?_, ?_, ?_⟩
    · intro env d a st r h e he
      cases a with
      | actSet p =>
        simp only [runAct] at h
        exact ihS env d p st r h e he
      | actSub i =>
        simp only [runAct, Option.some.injEq] at h
        subst h
        simp at he
      | actUnsub i =>
        simp only [runAct, Option.some.injEq] at h
        subst h
        simp at he
    · intro env d acts st r h e he
      cases acts with
      | nil =>
        simp only [runActs, Option.some.injEq] at h
        subst h
        simp at he
      | cons a rest =>
        simp only [runActs] at h
        split at h
        · simp at h
        · rename_i r1 h1
          split at h
          · simp at h
          · rename_i r2 h2
            simp only [Option.some.injEq] at h
            subst h
            simp only [List.mem_append] at he
            rcases he with he | he
            · exact ihA env d a st r1 h1 e he
            · exact ihAs env d rest r1.1 r2 h2 e he
    · intro env d p st r h e he
      simp only [doSetM] at h
      exact ihL env d 0 _ r h e he
    · intro env d i st r h e he
      simp only [notifyLoop] at h
      split at h
      · split at h
        · split at h
          · simp at h
          · rename_i r1 h1
            split at h
            · simp at h
            · rename_i r2 h2
              simp only [Option.some.injEq] at h
              subst h
              simp only [List.mem_cons, List.mem_append] at he
              rcases he with he | he | he
              · subst he; exact Nat.le_refl d
              · exact Nat.le_of_succ_le (ihAs env (d + 1) _ st r1 h1 e he)
              · exact ihL env d (i + 1) r1.1 r2 h2 e he
        · exact ihL env d (i + 1) st r h e he
      · simp only [Option.some.injEq] at h
        subst h
        simp at he

/-- When callbacks only ever call `set`, the entry list of the subscriber
`Set` survives every part of a run unchanged. -/
theorem regPassive_entries (fuel : Nat) :
    (∀ env d a st r, regPassive env → (∃ p, a = Act.actSet p) →
      runAct fuel env d a st = some r → r.1.entries = st.entries) ∧
    (∀ env d acts st r, regPassive env → (∀ a ∈ acts, ∃ p, a = Act.actSet p) →
      runActs fuel env d acts st = some r → r.1.entries = st.entries) ∧
    (∀ env d p st r, regPassive env →
      doSetM fuel env d p st = some r → r.1.entries = st.entries) ∧
    (∀ env d i st r, regPassive env →
      notifyLoop fuel env d i st = some r → r.1.entries = st.entries) := by
  induction fuel with
  | zero =>
    refine ⟨?_, ?_, ?_, ?_⟩
    · intro env d a st r henv ha h
      simp [runAct] at h
    · intro env d acts st r henv ha h
      simp [runActs] at h
    · intro env d p st r henv h
      simp [doSetM] at h
    · intro env d i st r henv h
      simp [notifyLoop] at h
  | succ fuel ih =>
    obtain ⟨ihA, ihAs, ihS, ihL⟩ := ih
    refine ⟨?_, ?_, ?_, ?_⟩
    · intro env d a st r henv ha h
      obtain ⟨p, hp⟩ := ha
      subst hp
      simp only [runAct] at h
      exact ihS env d p st r henv h
    · intro env d acts st r henv ha h
      cases acts with
      | nil =>
        simp only [runActs, Option.some.injEq] at h
        subst h
        rfl
      | cons a rest =>
        simp only [runActs] at h
        split at h
        · simp at h
        · rename_i r1 h1
          split at h
          · simp at h
          · rename_i r2 h2
            simp only [Option.some.injEq] at h
            subst h
            have e1 := ihA env d a st r1 henv (ha a (by simp)) h1
            have e2 := ihAs env d rest r1.1 r2 henv
              (fun a' ha' => ha a' (by simp [ha'])) h2
            simp only [e2, e1]
    · intro env d p st r henv h
      simp only [doSetM] at h
      simpa using ihL env d 0 _ r henv h
    · intro env d i st r henv h
      simp only [notifyLoop] at h
      split at h
      · rename_i hlt
        split at h
        · split at h
          · simp at h
          · rename_i r1 h1
            split at h
            · simp at h
            · rename_i r2 h2
              simp only [Option.some.injEq] at h
              subst h
              have e1 := ihAs env (d + 1) _ st r1 henv
                (fun a' ha' => henv _ _ a' ha') h1
              have e2 := ihL env d (i + 1) r1.1 r2 henv h2
              simp only [e2, e1]
        · exact ihL env d (i + 1) st r henv h
      · simp only [Option.some.injEq] at h
        subst h
        rfl

/-- With registry-passive callbacks, the walk of the notification loop from
position `i` invokes, at its own depth and in order, exactly the live
entries from position `i` on. -/
theorem notifyLoop_outer_log (fuel : Nat) :
    ∀ env d i st r, regPassive env → notifyLoop fuel env d i st = some r →
      (r.2.filter (fun e => e.1 == d)).map (fun e => e.2.1) =
        aliveIds (st.entries.drop i) := by
  induction fuel with
  | zero =>
    intro env d i st r henv h
    simp [notifyLoop] at h
  | succ fuel ih =>
    intro env d i st r henv h
    simp only [notifyLoop] at h
    split at h
    · rename_i hlt
      have hdrop := List.drop_eq_getElem_cons hlt
      split at h
      · rename_i halive
        split at h
        · simp at h
        · rename_i r1 h1
          split at h
          · simp at h
          · rename_i r2 h2
            simp only [Option.some.injEq] at h
            subst h
            have hdepth : ∀ e ∈ r1.2, d + 1 ≤ e.1 :=
              (log_depth_ge fuel).2.1 env (d + 1) _ st r1 h1
            have hfilter1 : r1.2.filter (fun e => e.1 == d) = [] := by
              rw [List.filter_eq_nil_iff]
              intro e he
              have := hdepth e he
              simp only [beq_iff_eq]
              omega
            have hentries : r1.1.entries = st.entries :=
              (regPassive_entries fuel).2.1 env (d + 1) _ st r1 henv
                (fun a ha => henv _ _ a ha) h1
            have hrec := ih env d (i + 1) r1.1 r2 henv h2
            rw [hentries] at hrec
            have halive2 : (st.entries[i]).2 = true := by
              simpa [List.get_eq_getElem] using halive
            simp only [List.filter_cons, List.filter_append, hfilter1,
              beq_self_eq_true, List.map_cons, List.map_append, List.map_nil,
              if_pos, List.nil_append]
            rw [hrec]
            simp only [aliveIds]
            rw [hdrop, List.filter_cons_of_pos halive2, List.map_cons]
            simp [List.get_eq_getElem]
      · rename_i halive
        have halive2 : (st.entries[i]).2 = false := by
          simpa [List.get_eq_getElem] using halive
        have hrec := ih env d (i + 1) st r henv h
        rw [hrec]
        simp only [aliveIds]
        rw [hdrop, List.filter_cons_of_neg (by simp [halive2])]
    · rename_i hge
      simp only [Option.some.injEq] at h
      subst h
      rw [List.drop_eq_nil_of_le (by omega)]
      simp [aliveIds]

/-- With callbacks that perform no action at all (pure observers, the
binding-layer pattern: read and schedule a re-render), the notification walk
leaves the state untouched and every invoked callback observes exactly the
state the walk started from. -/
theorem notifyLoop_passive (fuel : Nat) :
    ∀ env d i st r, (∀ j v, env j v = []) →
      notifyLoop fuel env d i st = some r →
      r.1 = st ∧ ∀ e ∈ r.2, e.2.2 = st.value := by
  induction fuel with
  | zero =>
    intro env d i st r henv h
    simp [notifyLoop] at h
  | succ fuel ih =>
    intro env d i st r henv h
    simp only [notifyLoop] at h
    split at h
    · split at h
      · rw [henv] at h
        cases fuel with
        | zero => simp [runActs] at h
        | succ fuel2 =>
          simp only [runActs] at h
          split at h
          · simp at h
          · rename_i r2 h2
            simp only [Option.some.injEq] at h
            subst h
            have hr := ih env d (i + 1) st r2 henv h2
            refine ⟨hr.1, ?_⟩
            intro e he
            simp only [List.nil_append, List.mem_cons] at he
            rcases he with he | he
            · subst he; rfl
            · exact hr.2 e he
      · exact ih env d (i + 1) st r henv h
    · simp only [Option.some.injEq] at h
      subst h
      exact ⟨rfl, by simp⟩

/-- A terminating `set` with observer-only callbacks: the merge is completed
first, every subscriber invoked by the notification loop observes (via
`get`) the fully merged value, and the final value is that merged value. -/
theorem doSetM_passive (fuel : Nat) (env : Env) (d : Nat) (p : Value)
    (st : MState) (r : MState × List LogE) (henv : ∀ j v, env j v = [])
    (h : doSetM fuel env d p st = some r) :
    r.1.value = spreadMerge st.value p ∧ r.1.entries = st.entries ∧
      ∀ e ∈ r.2, e.2.2 = spreadMerge st.value p := by
  cases fuel with
  | zero => simp [doSetM] at h
  | succ fuel =>
    simp only [doSetM] at h
    have hr := notifyLoop_passive fuel env d 0 _ r henv h
    refine ⟨?_, ?_, ?_⟩
    · rw [hr.1]
    · rw [hr.1]
    · exact hr.2

/-- A terminating `set` whose callbacks never touch the registry (they may
re-entrantly call `set`): the loop at its own depth invokes exactly the
subscribers registered at the moment notification begins, in order, and the
registry is unchanged when it returns. -/
theorem doSetM_outer_log (fuel : Nat) (env : Env) (d : Nat) (p : Value)
    (st : MState) (r : MState × List LogE) (henv : regPassive env)
    (h : doSetM fuel env d p st = some r) :
    (r.2.filter (fun e => e.1 == d)).map (fun e => e.2.1) =
        aliveIds st.entries ∧
      r.1.entries = st.entries := by
  cases fuel with
  | zero => simp [doSetM] at h
  | succ fuel =>
    simp only [doSetM] at h
    constructor
    · simpa using notifyLoop_outer_log fuel env d 0 _ r henv h
    · simpa using (regPassive_entries fuel).2.2.2 env d 0 _ r henv h

/-- Adding an id and then deleting it leaves the registry as if only the
deletion had happened. -/
theorem delSub_addSub (subs : List Nat) (i : Nat) :
    delSub (addSub subs i) i = delSub subs i := by
  unfold addSub delSub
  by_cases hm : i ∈ subs
  · simp [hm]
  · simp [hm, List.filter_append]

/-- The re-entrant counter behaviour never removes a subscriber. -/
theorem reentrantEnv_noRemoval : noRemoval reentrantEnv := by
  intro i v a ha j
  unfold reentrantEnv at ha
  split at ha
  · split at ha
    · split at ha
      · simp only [List.mem_cons, List.mem_singleton, List.not_mem_nil,
          or_false] at ha
        rcases ha with rfl | rfl <;> simp
      · simp at ha
    · simp at ha
  · simp at ha

/-- Dropping before position `i` of an extended list still starts with the
`i`-th element of the original prefix. -/
theorem drop_append_of_lt {α : Type} (es ext : List α) (i : Nat)
    (h : i < es.length) :
    (es ++ ext).drop i = es.get ⟨i, h⟩ :: (es ++ ext).drop (i + 1) := by
  have hlt : i < (es ++ ext).length := by
    simp only [List.length_append]
    omega
  rw [List.drop_eq_getElem_cons hlt]
  simp [List.getElem_append_left h, List.get_eq_getElem]

/-- Membership of the modelled `Set` is membership of its alive id list. -/
theorem aliveE_eq_true_iff (es : Entries) (j : Nat) :
    aliveE es j = true ↔ j ∈ aliveIds es := by
  unfold aliveE aliveIds
  simp only [List.any_eq_true, Bool.and_eq_true, beq_iff_eq, List.mem_map,
    List.mem_filter]
  constructor
  · rintro ⟨e, he, h1, h2⟩
    exact ⟨e, ⟨he, h2⟩, h1⟩
  · rintro ⟨e, ⟨he, h2⟩, h1⟩
    exact ⟨e, he, h1, h2⟩

/-- Alive ids distribute over appending entries. -/
theorem aliveIds_append (es ext : Entries) :
    aliveIds (es ++ ext) = aliveIds es ++ aliveIds ext := by
  simp [aliveIds, List.filter_append]

/-- Alive ids of a cons with a live head. -/
theorem aliveIds_cons_of_pos (x : Nat × Bool) (xs : Entries)
    (hx : x.2 = true) :
    aliveIds (x :: xs) = x.1 :: aliveIds xs := by
  simp [aliveIds, List.filter_cons_of_pos hx]

/-- Alive ids of a cons with a dead head. -/
theorem aliveIds_cons_of_neg (x : Nat × Bool) (xs : Entries)
    (hx : x.2 = false) :
    aliveIds (x :: xs) = aliveIds xs := by
  simp [aliveIds, List.filter_cons, hx]

/-- `Set.add` either leaves the alive ids unchanged or appends the new one. -/
theorem aliveIds_addE (es : Entries) (j : Nat) :
    aliveIds (addE es j) =
      if aliveE es j then aliveIds es else aliveIds es ++ [j] := by
  unfold addE
  split
  · rfl
  · rw [aliveIds_append]
    simp [aliveIds]

/-- `Set.add` keeps the alive id list duplicate-free. -/
theorem addE_nodup (es : Entries) (j : Nat)
    (hn : (aliveIds es).Nodup) : (aliveIds (addE es j)).Nodup := by
  rw [aliveIds_addE]
  split
  · exact hn
  · rename_i hfalse
    have hj : j ∉ aliveIds es := fun hmem =>
      hfalse ((aliveE_eq_true_iff es j).mpr hmem)
    simp [List.nodup_append, List.disjoint_singleton, hn, hj]

/-- When callbacks never remove a subscriber, a run only appends entries to
the subscriber `Set` (existing entries, including their alive flags, are
untouched) and keeps the alive id list duplicate-free. -/
theorem noRemoval_entries (fuel : Nat) :
    (∀ env d a st r, noRemoval env → (∀ j, a ≠ Act.actUnsub j) →
      runAct fuel env d a st = some r →
      (∃ ext, r.1.entries = st.entries ++ ext) ∧
        ((aliveIds st.entries).Nodup → (aliveIds r.1.entries).Nodup)) ∧
    (∀ env d acts st r, noRemoval env → (∀ a ∈ acts, ∀ j, a ≠ Act.actUnsub j) →
      runActs fuel env d acts st = some r →
      (∃ ext, r.1.entries = st.entries ++ ext) ∧
        ((aliveIds st.entries).Nodup → (aliveIds r.1.entries).Nodup)) ∧
    (∀ env d p st r, noRemoval env →
      doSetM fuel env d p st = some r →
      (∃ ext, r.1.entries = st.entries ++ ext) ∧
        ((aliveIds st.entries).Nodup → (aliveIds r.1.entries).Nodup)) ∧
    (∀ env d i st r, noRemoval env →
      notifyLoop fuel env d i st = some r →
      (∃ ext, r.1.entries = st.entries ++ ext) ∧
        ((aliveIds st.entries).Nodup → (aliveIds r.1.entries).Nodup)) := by
  induction fuel with
  | zero =>
    refine ⟨?_, ?_, ?_, ?_⟩
    · intro env d a st r henv ha h
      simp [runAct] at h
    · intro env d acts st r henv ha h
      simp [runActs] at h
    · intro env d p st r henv h
      simp [doSetM] at h
    · intro env d i st r henv h
      simp [notifyLoop] at h
  | succ fuel ih =>
    obtain ⟨ihA, ihAs, ihS, ihL⟩ := ih
    refine ⟨?_, ?_, ?_, ?_⟩
    · intro env d a st r henv ha h
      cases a with
      | actSet p =>
        simp only [runAct] at h
        exact ihS env d p st r henv h
      | actSub j =>
        simp only [runAct, Option.some.injEq] at h
        subst h
        constructor
        · unfold addE
          split
          · exact ⟨[], by simp⟩
          · exact ⟨[(j, true)], rfl⟩
        · intro hn
          exact addE_nodup st.entries j hn
      | actUnsub j => exact absurd rfl (ha j)
    · intro env d acts st r henv ha h
      cases acts with
      | nil =>
        simp only [runActs, Option.some.injEq] at h
        subst h
        exact ⟨⟨[], by simp⟩, fun hn => hn⟩
      | cons a rest =>
        simp only [runActs] at h
        split at h
        · simp at h
        · rename_i r1 h1
          split at h
          · simp at h
          · rename_i r2 h2
            simp only [Option.some.injEq] at h
            subst h
            obtain ⟨⟨e1, he1⟩, hn1⟩ :=
              ihA env d a st r1 henv (ha a (by simp)) h1
            obtain ⟨⟨e2, he2⟩, hn2⟩ :=
              ihAs env d rest r1.1 r2 henv
                (fun x hx => ha x (by simp [hx])) h2
            refine ⟨⟨e1 ++ e2, ?_⟩, fun hn => hn2 (hn1 hn)⟩
            rw [he2, he1, List.append_assoc]
    · intro env d p st r henv h
      simp only [doSetM] at h
      simpa using ihL env d 0 _ r henv h
    · intro env d i st r henv h
      simp only [notifyLoop] at h
      split at h
      · split at h
        · split at h
          · simp at h
          · rename_i r1 h1
            split at h
            · simp at h
            · rename_i r2 h2
              simp only [Option.some.injEq] at h
              subst h
              obtain ⟨⟨e1, he1⟩, hn1⟩ :=
                ihAs env (d + 1) _ st r1 henv
                  (fun x hx j => henv _ _ x hx j) h1
              obtain ⟨⟨e2, he2⟩, hn2⟩ := ihL env d (i + 1) r1.1 r2 henv h2
              refine ⟨⟨e1 ++ e2, ?_⟩, fun hn => hn2 (hn1 hn)⟩
              rw [he2, he1, List.append_assoc]
        · exact ihL env d (i + 1) st r henv h
      · simp only [Option.some.injEq] at h
        subst h
        exact ⟨⟨[], by simp⟩, fun hn => hn⟩

/-- With callbacks that never remove a subscriber, the walk of the
notification loop from position `i` invokes, at its own depth and in
insertion order, exactly the entries of the final entry list from position
`i` on that are alive — the start-registered ones (whose entries are
untouched by the run) followed by those appended during the loop. -/
theorem notifyLoop_live_log (fuel : Nat) :
    ∀ env d i st r, noRemoval env → notifyLoop fuel env d i st = some r →
      (r.2.filter (fun e => e.1 == d)).map (fun e => e.2.1) =
        aliveIds (r.1.entries.drop i) := by
  induction fuel with
  | zero =>
    intro env d i st r henv h
    simp [notifyLoop] at h
  | succ fuel ih =>
    intro env d i st r henv h
    simp only [notifyLoop] at h
    split at h
    · rename_i hlt
      split at h
      · rename_i halive
        split at h
        · simp at h
        · rename_i r1 h1
          split at h
          · simp at h
          · rename_i r2 h2
            simp only [Option.some.injEq] at h
            subst h
            have hdepth : ∀ e ∈ r1.2, d + 1 ≤ e.1 :=
              (log_depth_ge fuel).2.1 env (d + 1) _ st r1 h1
            have hfilter1 : r1.2.filter (fun e => e.1 == d) = [] := by
              rw [List.filter_eq_nil_iff]
              intro e he
              have := hdepth e he
              simp only [beq_iff_eq]
              omega
            obtain ⟨⟨e1, he1⟩, _⟩ :=
              (noRemoval_entries fuel).2.1 env (d + 1) _ st r1 henv
                (fun x hx j => henv _ _ x hx j) h1
            obtain ⟨⟨e2, he2⟩, _⟩ :=
              (noRemoval_entries fuel).2.2.2 env d (i + 1) r1.1 r2 henv h2
            have hfin : r2.1.entries = st.entries ++ (e1 ++ e2) := by
              rw [he2, he1, List.append_assoc]
            have hrec := ih env d (i + 1) r1.1 r2 henv h2
            simp only [List.filter_cons, List.filter_append, hfilter1,
              beq_self_eq_true, List.map_cons, List.map_append, List.map_nil,
              if_pos, List.nil_append]
            rw [hrec, hfin, drop_append_of_lt st.entries (e1 ++ e2) i hlt,
              aliveIds_cons_of_pos _ _ halive]
      · rename_i halive
        obtain ⟨⟨e1, he1⟩, _⟩ :=
          (noRemoval_entries fuel).2.2.2 env d (i + 1) st r henv h
        have hrec := ih env d (i + 1) st r henv h
        rw [hrec, he1, drop_append_of_lt st.entries e1 i hlt,
          aliveIds_cons_of_neg _ _ (by
            simpa [List.get_eq_getElem] using halive)]
    · rename_i hge
      simp only [Option.some.injEq] at h
      subst h
      rw [List.drop_eq_nil_of_le (by simpa using Nat.le_of_not_lt hge)]
      simp [aliveIds]

/-! ## The claims -/

/-- C1: for every current store value and every patch, `set(patch)` makes
`get()` return the shallow merge of the patch over the previous value:
every field present in the patch overwrites the old field, every field
absent from the patch is preserved unchanged, and nested aggregates inside
the value are replaced wholesale (the patch's value is returned verbatim,
never merged field-by-field with the old one). -/
theorem set_shallow_merge (s : SState) (p : Value) (k : String) :
    lookupField (get (step s (Op.setOp p)).1) k =
      match lookupField p k with
      | some v => some v
      | none => lookupField (get s) k := by
  simpa [get, step] using lookupField_spreadMerge s.value p k

/-- C2: a single `set` call invokes exactly the subscribers registered at
the moment notification begins — each of the N distinct registered
callbacks exactly once before `set` returns — and the invocation log is the
same for every patch, including one whose fields equal their previous
values (no deduplication in the core). -/
theorem set_notifies_every_subscriber_once (s : SState) (p q : Value)
    (i : Nat) (hn : s.subs.Nodup) (hi : i ∈ s.subs) :
    (step s (Op.setOp p)).2 = s.subs ∧
    ((step s (Op.setOp p)).2).count i = 1 ∧
    (step s (Op.setOp q)).2 = (step s (Op.setOp p)).2 := by
  refine ⟨rfl, ?_, rfl⟩
  simpa [step] using count_eq_one_of_nodup s.subs i hn hi

theorem set_notifies_every_subscriber_once_witness :
    ([4, 7, 9] : List Nat).Nodup ∧ 7 ∈ ([4, 7, 9] : List Nat) ∧
    ((step ⟨[("a", JVal.num 1)], [4, 7, 9]⟩
        (Op.setOp [("a", JVal.num 1)])).2 = [4, 7, 9] ∧
      ((step ⟨[("a", JVal.num 1)], [4, 7, 9]⟩
        (Op.setOp [("a", JVal.num 1)])).2).count 7 = 1 ∧
      (step ⟨[("a", JVal.num 1)], [4, 7, 9]⟩ (Op.setOp [])).2 =
        (step ⟨[("a", JVal.num 1)], [4, 7, 9]⟩
          (Op.setOp [("a", JVal.num 1)])).2) :=
  ⟨by decide, by decide,
    set_notifies_every_subscriber_once ⟨[("a", JVal.num 1)], [4, 7, 9]⟩
      [("a", JVal.num 1)] [] 7 (by decide) (by decide)⟩

/-- C3 counterexample: under the code's live iteration of the subscriber
`Set`, a subscriber that is registered at the moment notification begins
(id 2, alive in `threeSubsSt`) but removed by an earlier callback during
the loop is never invoked by the outer `set`: the log of the run contains
invocations of subscribers 1 and 3 only, refuting "every subscriber
registered when the outer notification began is invoked exactly once, even
if subscribers are removed during the notification loop". -/
theorem set_skips_subscriber_removed_during_notification :
    aliveE threeSubsSt.entries 2 = true ∧
    doSetM 10 unsubDuringNotifyEnv 0 [("x", JVal.num 1)] threeSubsSt =
      some ({ value := [("x", JVal.num 1)],
              entries := [(1, true), (2, false), (3, true)] },
            [(0, 1, [("x", JVal.num 1)]), (0, 3, [("x", JVal.num 1)])]) :=
  ⟨rfl, by decide⟩

/-- C3 (amended): a subscriber callback may itself call `set`; the nested
`set` completes its own full merge-and-notify cycle within the outer loop
(`doSetM` is re-entered and its notifications are logged at greater depth).
Provided no subscriber is removed during the notification — callbacks may
re-entrantly call `set` and may add subscribers — the outer notification
loop neither skips nor double-invokes anyone: its invocations are exactly
the final registry in insertion order, of which the subscribers registered
at the moment the outer notification begins form the prefix, so every
start-registered subscriber is invoked exactly once for the outer `set`,
and subscribers added during the loop are visited after them.  (By the
counterexample, removal during the loop makes the code skip the removed,
not-yet-visited subscriber, so only the "removed" half of the original
claim's "even if subscribers are added or removed" clause fails.) -/
theorem set_reentrant_outer_notification (fuel : Nat) (env : Env) (p : Value)
    (st : MState) (r : MState × List LogE) (i : Nat)
    (henv : noRemoval env) (h : doSetM fuel env 0 p st = some r)
    (hn : (aliveIds st.entries).Nodup) (hi : i ∈ aliveIds st.entries) :
    (r.2.filter (fun e => e.1 == 0)).map (fun e => e.2.1) =
        aliveIds r.1.entries ∧
    aliveIds st.entries <+: aliveIds r.1.entries ∧
    ((r.2.filter (fun e => e.1 == 0)).map (fun e => e.2.1)).count i = 1 := by
  cases fuel with
  | zero => simp [doSetM] at h
  | succ fuel =>
    simp only [doSetM] at h
    have hlog := notifyLoop_live_log fuel env 0 0 _ r henv h
    simp only [List.drop_zero] at hlog
    obtain ⟨⟨ext, hext⟩, hnodup⟩ :=
      (noRemoval_entries fuel).2.2.2 env 0 0 _ r henv h
    have hext2 : r.1.entries = st.entries ++ ext := hext
    have hfin : (aliveIds r.1.entries).Nodup := hnodup hn
    have hi2 : i ∈ aliveIds r.1.entries := by
      rw [hext2, aliveIds_append]
      exact List.mem_append_left _ hi
    refine ⟨hlog, ⟨aliveIds ext, ?_⟩, ?_⟩
    · rw [hext2, aliveIds_append]
    · rw [hlog]
      exact count_eq_one_of_nodup (aliveIds r.1.entries) i hfin hi2

theorem set_reentrant_outer_notification_witness :
    noRemoval reentrantEnv ∧
    doSetM 30 reentrantEnv 0 [("count", JVal.num 1)] reentrantSt =
      some reentrantResult ∧
    (aliveIds reentrantSt.entries).Nodup ∧
    0 ∈ aliveIds reentrantSt.entries ∧
    ((reentrantResult.2.filter (fun e => e.1 == 0)).map (fun e => e.2.1) =
        aliveIds reentrantResult.1.entries ∧
      aliveIds reentrantSt.entries <+: aliveIds reentrantResult.1.entries ∧
      ((reentrantResult.2.filter (fun e => e.1 == 0)).map
        (fun e => e.2.1)).count 0 = 1) :=
  ⟨reentrantEnv_noRemoval, by decide, by decide, by decide,
    set_reentrant_outer_notification 30 reentrantEnv [("count", JVal.num 1)]
      reentrantSt reentrantResult 0 reentrantEnv_noRemoval (by decide)
      (by decide) (by decide)⟩

/-- C4: two stores created by two separate factory invocations with the
same initial value share no mutable state: after any trace of operations
addressed only to store A (in particular any `A.set(p)`), store B is still
exactly the freshly created store and `B.get()` still returns the initial
value; and `B.set` never invokes a subscriber that is not registered with
B (A's subscribers are not invoked by `B.set`). -/
theorem factory_isolation (s : Value) (ops : List WOp) (p : Value) (i : Nat)
    (hA : projB ops = []) (hi : i ∉ ((runW (createStore s, createStore s) ops).1.2).subs) :
    (runW (createStore s, createStore s) ops).1.2 = createStore s ∧
    get (runW (createStore s, createStore s) ops).1.2 = s ∧
    (true, i) ∉ (stepW (runW (createStore s, createStore s) ops).1
      (WOp.opB (Op.setOp p))).2 := by
  have hB := (runW_snd (createStore s, createStore s) ops).1
  rw [hA] at hB
  simp only [runOps] at hB
  refine ⟨hB, by rw [hB]; rfl, fun hmem => hi ?_⟩
  simpa [stepW, step] using hmem

theorem factory_isolation_witness :
    projB [WOp.opA (Op.subOp 5), WOp.opA (Op.setOp [("a", JVal.num 2)])] = [] ∧
    (5 ∉ ((runW (createStore [("a", JVal.num 1)], createStore [("a", JVal.num 1)])
      [WOp.opA (Op.subOp 5), WOp.opA (Op.setOp [("a", JVal.num 2)])]).1.2).subs) ∧
    ((runW (createStore [("a", JVal.num 1)], createStore [("a", JVal.num 1)])
        [WOp.opA (Op.subOp 5), WOp.opA (Op.setOp [("a", JVal.num 2)])]).1.2 =
          createStore [("a", JVal.num 1)] ∧
      get (runW (createStore [("a", JVal.num 1)], createStore [("a", JVal.num 1)])
        [WOp.opA (Op.subOp 5), WOp.opA (Op.setOp [("a", JVal.num 2)])]).1.2 =
          [("a", JVal.num 1)] ∧
      (true, 5) ∉ (stepW (runW (createStore [("a", JVal.num 1)],
          createStore [("a", JVal.num 1)])
        [WOp.opA (Op.subOp 5), WOp.opA (Op.setOp [("a", JVal.num 2)])]).1
        (WOp.opB (Op.setOp [("a", JVal.num 3)]))).2) :=
  ⟨by decide, by decide,
    factory_isolation [("a", JVal.num 1)]
      [WOp.opA (Op.subOp 5), WOp.opA (Op.setOp [("a", JVal.num 2)])]
      [("a", JVal.num 3)] 5 (by decide) (by decide)⟩

/-- C5: the store holds exactly one value and `get` returns the current,
fully merged value: `get` is a pure read (it returns `store.current` and
triggers no notification or mutation), `set` completes its merge before any
subscriber is notified, and a `get` issued from within a subscriber
callback already observes the new merged value (every invocation record of
a terminating `set` with observer callbacks carries the merged value). -/
theorem get_pure_and_merge_completes_before_notify (s : SState) (fuel : Nat)
    (env : Env) (p : Value) (st : MState) (r : MState × List LogE) (e : LogE)
    (henv : observerOnly env) (h : doSetM fuel env 0 p st = some r)
    (he : e ∈ r.2) :
    get s = s.value ∧ step s Op.getOp = (s, []) ∧
    r.1.value = spreadMerge st.value p ∧
    e.2.2 = spreadMerge st.value p := by
  obtain ⟨h1, _, h3⟩ := doSetM_passive fuel env 0 p st r henv h
  exact ⟨rfl, rfl, h1, h3 e he⟩

theorem get_pure_and_merge_completes_before_notify_witness :
    observerOnly observerEnv ∧
    doSetM 5 observerEnv 0 [("b", JVal.num 3)] twoFieldSt =
      some observerResult ∧
    (get (createStore [("a", JVal.num 1)]) =
        (createStore [("a", JVal.num 1)]).value ∧
      step (createStore [("a", JVal.num 1)]) Op.getOp =
        (createStore [("a", JVal.num 1)], []) ∧
      observerResult.1.value = spreadMerge twoFieldSt.value [("b", JVal.num 3)] ∧
      ((0, 1, [("a", JVal.num 1), ("b", JVal.num 3)]) : LogE).2.2 =
        spreadMerge twoFieldSt.value [("b", JVal.num 3)]) :=
  ⟨fun _ _ => rfl, by decide,
    get_pure_and_merge_completes_before_notify
      (createStore [("a", JVal.num 1)]) 5 observerEnv [("b", JVal.num 3)]
      twoFieldSt observerResult
      (0, 1, [("a", JVal.num 1), ("b", JVal.num 3)])
      (fun _ _ => rfl) (by decide) (by decide)⟩

/-- C6: the unsubscribe function returned by `subscribe(cb)` removes
exactly that subscriber: a subsequent `set` does not invoke it, every other
subscriber's registration is untouched, the store value is untouched, and a
second unsubscribe call is a no-op on the state that invokes nobody (and,
being a total operation, does not throw). -/
theorem unsubscribe_removes_and_idempotent (s : SState) (i j : Nat)
    (p : Value) (hj : j ≠ i) :
    i ∉ (step (step s (Op.unsubOp i)).1 (Op.setOp p)).2 ∧
    step (step s (Op.unsubOp i)).1 (Op.unsubOp i) =
      ((step s (Op.unsubOp i)).1, []) ∧
    (step s (Op.unsubOp i)).1.subs.count j = s.subs.count j ∧
    (step s (Op.unsubOp i)).1.value = s.value := by
  refine ⟨?_, ?_, ?_, rfl⟩
  · simpa [step] using not_mem_delSub s.subs i
  · simp [step, delSub_idem]
  · simpa [step] using count_delSub_of_ne s.subs i j hj

theorem unsubscribe_removes_and_idempotent_witness :
    (3 : Nat) ≠ 2 ∧
    ((2 : Nat) ∉ (step (step ⟨[("a", JVal.num 1)], [1, 2, 3]⟩
        (Op.unsubOp 2)).1 (Op.setOp [])).2 ∧
      step (step ⟨[("a", JVal.num 1)], [1, 2, 3]⟩ (Op.unsubOp 2)).1
          (Op.unsubOp 2) =
        ((step ⟨[("a", JVal.num 1)], [1, 2, 3]⟩ (Op.unsubOp 2)).1, []) ∧
      (step ⟨[("a", JVal.num 1)], [1, 2, 3]⟩
          (Op.unsubOp 2)).1.subs.count 3 =
        (⟨[("a", JVal.num 1)], [1, 2, 3]⟩ : SState).subs.count 3 ∧
      (step ⟨[("a", JVal.num 1)], [1, 2, 3]⟩ (Op.unsubOp 2)).1.value =
        (⟨[("a", JVal.num 1)], [1, 2, 3]⟩ : SState).value) :=
  ⟨by decide,
    unsubscribe_removes_and_idempotent ⟨[("a", JVal.num 1)], [1, 2, 3]⟩
      2 3 [] (by decide)⟩

/-- C7: `subscribe` has no observable effect other than registering the
callback: it invokes nobody at registration time, neither subscribing nor
unsubscribing changes the store value, and a trace containing no `set`
call at all (however many subscribes, unsubscribes and reads it contains)
invokes no callback and leaves the value unchanged. -/
theorem subscribe_no_observable_effect (s : SState) (i : Nat)
    (ops : List Op) (h : hasSet ops = false) :
    (step s (Op.subOp i)).2 = [] ∧
    get (step s (Op.subOp i)).1 = get s ∧
    get (step s (Op.unsubOp i)).1 = get s ∧
    (runOps s ops).2 = [] ∧
    get (runOps s ops).1 = get s :=
  ⟨rfl, rfl, rfl, (runOps_no_set s ops h).1, (runOps_no_set s ops h).2⟩

theorem subscribe_no_observable_effect_witness :
    hasSet [Op.subOp 1, Op.getOp, Op.subOp 2, Op.unsubOp 1] = false ∧
    ((step (createStore [("a", JVal.num 1)]) (Op.subOp 1)).2 = [] ∧
      get (step (createStore [("a", JVal.num 1)]) (Op.subOp 1)).1 =
        get (createStore [("a", JVal.num 1)]) ∧
      get (step (createStore [("a", JVal.num 1)]) (Op.unsubOp 1)).1 =
        get (createStore [("a", JVal.num 1)]) ∧
      (runOps (createStore [("a", JVal.num 1)])
        [Op.subOp 1, Op.getOp, Op.subOp 2, Op.unsubOp 1]).2 = [] ∧
      get (runOps (createStore [("a", JVal.num 1)])
        [Op.subOp 1, Op.getOp, Op.subOp 2, Op.unsubOp 1]).1 =
        get (createStore [("a", JVal.num 1)])) :=
  ⟨by decide,
    subscribe_no_observable_effect (createStore [("a", JVal.num 1)]) 1
      [Op.subOp 1, Op.getOp, Op.subOp 2, Op.unsubOp 1] (by decide)⟩

/-- C8: the subscriber registry is a set keyed by identity with no
duplicates, preserved by every operation; subscribing the same callback
twice leaves it registered once, a subsequent `set` invokes it exactly
once, and a single unsubscribe call (each of the two returned unsubscribe
closures deletes the same callback identity) removes it entirely, so later
`set` calls never invoke it. -/
theorem registry_set_semantics (s : SState) (i : Nat) (p q : Value)
    (op : Op) (hn : s.subs.Nodup) :
    (step s op).1.subs.Nodup ∧
    addSub (addSub s.subs i) i = addSub s.subs i ∧
    (step { s with subs := addSub (addSub s.subs i) i }
      (Op.setOp p)).2.count i = 1 ∧
    delSub (addSub (addSub s.subs i) i) i = delSub s.subs i ∧
    i ∉ (step { s with subs := delSub (addSub (addSub s.subs i) i) i }
      (Op.setOp q)).2 := by
  refine ⟨step_nodup s op hn, addSub_idem s.subs i, ?_, ?_, ?_⟩
  · simp only [step, addSub_idem]
    exact count_eq_one_of_nodup (addSub s.subs i) i
      (addSub_nodup s.subs i hn) (mem_addSub s.subs i)
  · rw [addSub_idem, delSub_addSub]
  · simpa [step] using not_mem_delSub (addSub (addSub s.subs i) i) i

theorem registry_set_semantics_witness :
    (([1, 3] : List Nat)).Nodup ∧
    ((step ⟨[("a", JVal.num 1)], [1, 3]⟩ (Op.subOp 9)).1.subs.Nodup ∧
      addSub (addSub [1, 3] 2) 2 = addSub [1, 3] 2 ∧
      (step ⟨[("a", JVal.num 1)], addSub (addSub [1, 3] 2) 2⟩
        (Op.setOp [])).2.count 2 = 1 ∧
      delSub (addSub (addSub [1, 3] 2) 2) 2 = delSub [1, 3] 2 ∧
      2 ∉ (step ⟨[("a", JVal.num 1)], delSub (addSub (addSub [1, 3] 2) 2) 2⟩
        (Op.setOp [("b", JVal.num 2)])).2) :=
  ⟨by decide,
    registry_set_semantics ⟨[("a", JVal.num 1)], [1, 3]⟩ 2 []
      [("b", JVal.num 2)] (Op.subOp 9) (by decide)⟩

/-- C9: invoking `useStore` where no store has been made ambient (the
context holds no store, i.e. no `Provider` above) fails fast with the
thrown "Store not found!" error rather than proceeding with an undefined
state; with an ambient store it does not throw and proceeds with that
store. -/
theorem useStore_fails_fast_without_provider (s : SState) :
    useStoreGuard none = Except.error "Store not found!" ∧
    useStoreGuard (some s) = Except.ok s :=
  ⟨rfl, rfl⟩

/-- C10: although the spec leaves the order unspecified, the code iterates
the subscriber `Set` in insertion order: after subscribing a list of
distinct callbacks to a fresh store with no intervening unsubscribes, a
single `set` invokes them in exactly the order they subscribed. -/
theorem notification_in_subscription_order (v p : Value) (ids : List Nat)
    (hn : ids.Nodup) :
    (runOps (createStore v) (ids.map Op.subOp)).1.subs = ids ∧
    (step (runOps (createStore v) (ids.map Op.subOp)).1 (Op.setOp p)).2 =
      ids := by
  have h := runOps_subs_append (createStore v) ids hn
    (by intro j hj; simp [createStore])
  have h1 : (runOps (createStore v) (ids.map Op.subOp)).1.subs = ids := by
    simpa [createStore] using h.1
  exact ⟨h1, by simpa [step] using h1⟩

theorem notification_in_subscription_order_witness :
    ([5, 3, 9] : List Nat).Nodup ∧
    ((runOps (createStore [("a", JVal.num 1)])
        ([5, 3, 9].map Op.subOp)).1.subs = [5, 3, 9] ∧
      (step (runOps (createStore [("a", JVal.num 1)])
        ([5, 3, 9].map Op.subOp)).1 (Op.setOp [("b", JVal.num 2)])).2 =
        [5, 3, 9]) :=
  ⟨by decide,
    notification_in_subscription_order [("a", JVal.num 1)]
      [("b", JVal.num 2)] [5, 3, 9] (by decide)⟩

end FastContext
